import Mathlib

/-!
Shallow embedding of `src/fmfug.py` (Fast Memory Friendly Username Generator).

Strings are modelled as `List Char` (`Str`).  The embedding models the ASCII
fragment of Python's string operations: `str.lower`/`str.upper`/`str.capitalize`
via `Char.toLower`/`Char.toUpper` (which act on ASCII letters), `str.isupper` as
"contains a letter and no lowercase letter", `str.isspace`/`str.strip`/`str.split`
via `Char.isWhitespace`.  All inputs appearing in the claims are ASCII.
-/

namespace Fmfug

abbrev Str := List Char

/-- The three keyword tokens of the pattern language: `first|middle|last`
(the alternation of the compiled regexes `re_numeric`, `re_bracket`, `re_keywords`). -/
inductive Kw where
  | first
  | middle
  | last
deriving Repr, DecidableEq

def kwStr : Kw → Str
  | .first => ['f', 'i', 'r', 's', 't']
  | .middle => ['m', 'i', 'd', 'd', 'l', 'e']
  | .last => ['l', 'a', 's', 't']

/-- The dict returned by `UsernameGenerator.parse_name`. -/
structure NameParts where
  first : Str
  middle : Str
  last : Str
deriving Repr, DecidableEq

/-- `name_parts.get(part, '')` / the `replacements` dict of `_process_format`. -/
def getPart (np : NameParts) : Kw → Str
  | .first => np.first
  | .middle => np.middle
  | .last => np.last

/-- Match the regex alternation `(first|middle|last)` at the start of `s`,
returning the keyword and the rest.  The three keywords start with distinct
characters, so the regex alternation order is immaterial. -/
def matchKw : Str → Option (Kw × Str)
  | 'f' :: 'i' :: 'r' :: 's' :: 't' :: r => some (.first, r)
  | 'm' :: 'i' :: 'd' :: 'd' :: 'l' :: 'e' :: r => some (.middle, r)
  | 'l' :: 'a' :: 's' :: 't' :: r => some (.last, r)
  | _ => none

/-- Decimal value of a digit string (Python `int(...)`). -/
def digitsVal (s : Str) : Nat :=
  s.foldl (fun acc c => acc * 10 + (c.toNat - 48)) 0

/-- Match the regex `(first|middle|last)\[(\d+)\]` at the start of `s`
(the pre-compiled `re_bracket`), returning keyword, truncation length and rest.
`\d+` is greedy and is followed by the literal `]`, so taking the longest digit
run is exactly the regex behaviour. -/
def matchBracket (s : Str) : Option (Kw × Nat × Str) :=
  match matchKw s with
  | some (k, '[' :: r2) =>
    match r2.takeWhile Char.isDigit, r2.dropWhile Char.isDigit with
    | [], _ => none
    | ds, ']' :: r4 => some (k, digitsVal ds, r4)
    | _, _ => none
  | _ => none

/-- One pass of `self.re_bracket.sub(replace_with_length, result)`: scan left to
right, replace each `keyword[n]` occurrence by the first `n` characters of the
keyword's value (`value[:int(length)] if value else ''`; note `[].take n = []`),
and continue after the match.  `fuel` only drives the recursion; each step
consumes at least one character, so `fuel = s.length` never runs out. -/
def bracketSubF (np : NameParts) : Nat → Str → Str
  | _, [] => []
  | 0, s => s
  | fuel + 1, c :: rest =>
    match matchBracket (c :: rest) with
    | some (k, n, r) => (getPart np k).take n ++ bracketSubF np fuel r
    | none => c :: bracketSubF np fuel rest

def bracketSub (np : NameParts) (s : Str) : Str := bracketSubF np s.length s

/-- The keyword-substitution pass of `_process_format`:
`re_keywords.split(result)` followed by replacing each captured keyword part via
the `replacements` dict and joining — equivalently, replace each leftmost
occurrence of `first|middle|last` by its value and rescan after it. -/
def kwSub (np : NameParts) : Str → Str
  | 'f' :: 'i' :: 'r' :: 's' :: 't' :: r => np.first ++ kwSub np r
  | 'm' :: 'i' :: 'd' :: 'd' :: 'l' :: 'e' :: r => np.middle ++ kwSub np r
  | 'l' :: 'a' :: 's' :: 't' :: r => np.last ++ kwSub np r
  | c :: r => c :: kwSub np r
  | [] => []

/-- The two-pass substitution of `_process_format`: the bracket pass first,
then the keyword pass over the spliced text. -/
def substitute (np : NameParts) (fmt : Str) : Str :=
  kwSub np (bracketSub np fmt)

/-- The separator characters of the pre-compiled `re_separators` regex `([._-])`. -/
def isSep (c : Char) : Bool := c = '.' || c = '_' || c = '-'

/-- `re_separators.split(result)` with the capturing group: split on `.`/`_`/`-`,
keeping each separator as its own one-character part. -/
def splitSepAux (cur : Str) : Str → List Str
  | [] => [cur.reverse]
  | c :: r =>
    if isSep c then cur.reverse :: [c] :: splitSepAux [] r
    else splitSepAux (c :: cur) r

def splitSep (s : Str) : List Str := splitSepAux [] s

/-- `p.capitalize() if p and p[0].isalpha() else p` (Python `capitalize`:
first character upper-cased, the rest lower-cased; ASCII fragment). -/
def capSeg : Str → Str
  | [] => []
  | c :: r => if c.isAlpha then c.toUpper :: r.map Char.toLower else c :: r

/-- Python `str.isupper` on the ASCII fragment: at least one letter and no
lowercase letter (`format_str.isupper()`). -/
def strIsUpper (s : Str) : Bool :=
  s.any Char.isAlpha && s.all (fun c => !c.isLower)

/-- The case-handling block of `_process_format`:
```
if result and not self.case_sensitive: result = result.lower()
elif result:
    if format_str and format_str[0].isupper() and len(format_str) > 1:
        if format_str.isupper(): result = result.upper()
        else: capitalize each non-separator segment of re_separators.split(result)
```
`fmt` is the original (unsubstituted) format string. -/
def recase (cs : Bool) (fmt : Str) (r : Str) : Str :=
  if r ≠ [] ∧ cs = false then r.map Char.toLower
  else if r ≠ [] then
    match fmt with
    | [] => r
    | f :: rest =>
      if f.isUpper ∧ rest ≠ [] then
        if strIsUpper fmt then r.map Char.toUpper
        else ((splitSep r).map capSeg).flatten
      else r
  else r

/-- `UsernameGenerator._process_format`: bracket pass, keyword pass, case
handling, then `return result if result and not result.isspace() else None`. -/
def process_format (cs : Bool) (fmt : Str) (np : NameParts) : Option Str :=
  let r := recase cs fmt (substitute np fmt)
  if r ≠ [] ∧ ¬ r.all Char.isWhitespace then some r else none

/-- `re_numeric.match(format_str)` with `re_numeric = (first|middle|last)(\[(\d+)\])?(\d+)$`
and `re.match` anchoring at the start: the whole pattern must be a keyword,
optionally a bracketed digit group, and a trailing digit group reaching the
end.  Returns (keyword, bracket digits value if present, trailing digits value).
If the rest after the keyword starts with `[` but the bracket part fails, the
bracket-less alternative cannot match either (the rest would have to be all
digits but starts with `[`), so no backtracking case is lost. -/
def numericTail : Str → Option (Option Nat × Nat)
  | '[' :: r2 =>
    match r2.takeWhile Char.isDigit, r2.dropWhile Char.isDigit with
    | [], _ => none
    | ds, ']' :: r4 =>
      if r4 ≠ [] ∧ r4.all Char.isDigit then some (some (digitsVal ds), digitsVal r4)
      else none
    | _, _ => none
  | r => if r ≠ [] ∧ r.all Char.isDigit then some (none, digitsVal r) else none

def numericMatch (s : Str) : Option (Kw × Option Nat × Nat) :=
  match matchKw s with
  | none => none
  | some (k, r) =>
    match numericTail r with
    | none => none
    | some (br, n) => some (k, br, n)

/-- Decimal digits of `n` (Python `str(i)` inside the f-string `f"{base_username}{i}"`). -/
def natToStr (n : Nat) : Str := Nat.toDigits 10 n

/-- `UsernameGenerator.apply_format`: if `re_numeric` matches the whole format,
produce `base + str(i)` for `i in range(int(num) + 1)` from the keyword-only base
(the bracket digits of group 2/3 are never used) and return without falling
through; otherwise yield the single ordinary substitution result, if any. -/
def apply_format (cs : Bool) (fmt : Str) (np : NameParts) : List Str :=
  match numericMatch fmt with
  | some (k, _, n) =>
    match process_format cs (kwStr k) np with
    | some base => (List.range (n + 1)).map (fun i => base ++ natToStr i)
    | none => []
  | none =>
    match process_format cs fmt np with
    | some u => [u]
    | none => []

/-- Python `str.split()` with no arguments: split on whitespace runs, no empty
tokens. -/
def wordsAux (cur : Str) : Str → List Str
  | [] => if cur = [] then [] else [cur.reverse]
  | c :: r =>
    if c.isWhitespace then
      if cur = [] then wordsAux [] r else cur.reverse :: wordsAux [] r
    else wordsAux (c :: cur) r

def words (s : Str) : List Str := wordsAux [] s

/-- Python `str.strip()`: drop leading and trailing whitespace. -/
def trim (s : Str) : Str :=
  ((s.dropWhile Char.isWhitespace).reverse.dropWhile Char.isWhitespace).reverse

/-- `UsernameGenerator.parse_name`: `parts = name.strip().split()` (the strip is
subsumed by argument-less `split`), then
`first = parts[0] if len(parts) > 0 else ''`,
`middle = parts[1] if len(parts) > 2 else ''`,
`last = parts[-1] if len(parts) > 1 else ''`. -/
def parse_name (s : Str) : NameParts :=
  let parts := words s
  { first := parts.getD 0 []
    middle := if 2 < parts.length then parts.getD 1 [] else []
    last := if 1 < parts.length then parts.getLastD [] else [] }

/-- `UsernameGenerator.generate_from_name`: strip, bail out on empty input or
empty first component, else append every format's `apply_format` results in
format-list order. -/
def generate_from_name (cs : Bool) (formats : List Str) (name : Str) : List Str :=
  let name := trim name
  if name = [] then []
  else
    let np := parse_name name
    if np.first = [] then []
    else (formats.map (fun f => apply_format cs f np)).flatten

/-- A work item of the pipeline: a raw name string (single-list mode) or a
`(first_name, last_name)` pair (cross-product mode). -/
inductive WorkItem where
  | str (name : Str)
  | pair (fn ln : Str)
deriving Repr, DecidableEq

/-- `prepare_args` in `run_processing`: a tuple becomes `(None, fn, ln)`,
a plain name becomes `(name, None, None)`. -/
def prepare_args : WorkItem → Option Str × Option Str × Option Str
  | .str n => (some n, none, none)
  | .pair fn ln => (none, some fn, some ln)

/-- Python truthiness of an optional string: not `None` and non-empty. -/
def truthy : Option Str → Bool
  | none => false
  | some s => s ≠ []

/-- `UsernameGenerator.process_single_task`:
`full_name = f"{fn} {ln}" if fn and ln else name`, then
`generate_from_name(full_name)`.  When the item is a pair with a falsy
component, `full_name` is `None` and `None.strip()` raises an `AttributeError`,
modelled as `Except.error`. -/
def process_single_task (cs : Bool) (formats : List Str)
    (args : Option Str × Option Str × Option Str) : Except Unit (List Str) :=
  let (name, fn, ln) := args
  let full_name : Option Str :=
    if truthy fn ∧ truthy ln then some (fn.getD [] ++ ' ' :: ln.getD []) else name
  match full_name with
  | some n => .ok (generate_from_name cs formats n)
  | none => .error ()

/-- `UsernameGenerator.DEFAULT_FORMATS`. -/
def DEFAULT_FORMATS : List Str :=
  [ "first".data, "last".data, "firstlast".data, "lastfirst".data,
    "first.last".data, "last.first".data, "first-last".data, "last-first".data,
    "first_last".data, "last_first".data, "first[1].last".data, "last[1].first".data,
    "firstlast[1]".data, "first[1]last".data, "last[1]first".data, "lastfirst[1]".data,
    "first[1]last[1]".data, "last[1]first[1]".data ]

/-- `self.formats = formats or self.DEFAULT_FORMATS` in
`UsernameGenerator.__init__`: `None` and the empty list are both falsy. -/
def defaultedFormats : Option (List Str) → List Str
  | none => DEFAULT_FORMATS
  | some l => if l = [] then DEFAULT_FORMATS else l

/-! ## The `run_processing` pipeline

`run_processing` submits each chunk to a `ThreadPoolExecutor` and consumes the
chunk's futures with `as_completed`, i.e. in an arbitrary completion order that
is some permutation of the chunk.  The workers run the pure
`process_single_task`; all shared state (total, buffer, error reporting,
progress bar) is touched only by the controlling loop, one completed future at
a time.  The embedding therefore models a run as a fold of the per-future
aggregation step over the completion order, which is an arbitrary
chunkwise permutation of the source (theorems take the permutation as a
hypothesis). -/

/-- `WRITE_BUFFER_SIZE = 1000`. -/
def WRITE_BUFFER_SIZE : Nat := 1000

/-- The outcome `future.result()` of one work item. -/
def itemResult (cs : Bool) (fmts : List Str) (i : WorkItem) : Except Unit (List Str) :=
  process_single_task cs fmts (prepare_args i)

/-- The strings a work item contributes to the output (none on failure). -/
def itemStrings (cs : Bool) (fmts : List Str) (i : WorkItem) : List Str :=
  match itemResult cs fmts i with
  | .ok l => l
  | .error _ => []

/-- What a work item adds to `total_generated` (`len(usernames)` on success,
nothing on failure). -/
def itemCount (cs : Bool) (fmts : List Str) (i : WorkItem) : Nat :=
  (itemStrings cs fmts i).length

/-- Whether `future.result()` raises for this item. -/
def itemFails (cs : Bool) (fmts : List Str) (i : WorkItem) : Bool :=
  match itemResult cs fmts i with
  | .ok _ => false
  | .error _ => true

/-- The mutable state of the `run_processing` loop: `total_generated`,
`output_buffer`, the write operations performed on the output file (one list of
strings per `batch_write` call), the error events written to stderr (one per
failed item, carrying the offending item), the lines printed to stdout in
no-file mode, and the progress-bar count. -/
structure RunState where
  total : Nat
  buffer : List Str
  writes : List (List Str)
  errors : List WorkItem
  stdout : List Str
  progress : Nat
deriving Repr, DecidableEq

def initState : RunState := ⟨0, [], [], [], [], 0⟩

/-- The body of the `for future in as_completed(futures)` loop for one
completed item: on success add `len(usernames)` to the total and either buffer
(flushing via `batch_write` once the buffer has reached `WRITE_BUFFER_SIZE`
entries, then resetting it) or print directly; on failure report one error
event; in both cases advance the progress bar by one (`finally`). -/
def collectItem (cs : Bool) (fmts : List Str) (hasFile : Bool)
    (st : RunState) (item : WorkItem) : RunState :=
  match itemResult cs fmts item with
  | .ok us =>
    if hasFile then
      if WRITE_BUFFER_SIZE ≤ (st.buffer ++ us).length then
        { st with total := st.total + us.length, buffer := [],
                  writes := st.writes ++ [st.buffer ++ us], progress := st.progress + 1 }
      else
        { st with total := st.total + us.length, buffer := st.buffer ++ us,
                  progress := st.progress + 1 }
    else
      { st with total := st.total + us.length, stdout := st.stdout ++ us,
                progress := st.progress + 1 }
  | .error _ => { st with errors := st.errors ++ [item], progress := st.progress + 1 }

/-- Aggregation of a list of completed items, in completion order. -/
def runItems (cs : Bool) (fmts : List Str) (hasFile : Bool)
    (items : List WorkItem) (st : RunState) : RunState :=
  items.foldl (collectItem cs fmts hasFile) st

/-- Step 4 of `run_processing`: `if output_file and output_buffer:
batch_write(output_file, output_buffer)` after the source is exhausted. -/
def finalFlush (hasFile : Bool) (st : RunState) : RunState :=
  if hasFile ∧ st.buffer ≠ [] then { st with writes := st.writes ++ [st.buffer] } else st

/-- `itertools.islice` chunking of the source:
`chunk = list(islice(iterator, CHUNK_SIZE)); if not chunk: break`.  The fuel
argument only drives the recursion; each round consumes `n ≥ 1` items, so
`fuel = l.length` never runs out.  With `n = 0` the first chunk is empty and
the loop breaks at once, producing no chunks. -/
def chunksOfF {α : Type} (n : Nat) : Nat → List α → List (List α)
  | _, [] => []
  | 0, _ => []
  | fuel + 1, l => if n = 0 then [] else l.take n :: chunksOfF n fuel (l.drop n)

def chunksOf {α : Type} (n : Nat) (l : List α) : List (List α) := chunksOfF n l.length l

/-- The completion order of a whole run: the source is cut into chunks of
`CHUNK_SIZE = workers * 200`, and each chunk is consumed in the completion
order given by `order` (an arbitrary reordering; theorems hypothesise that it
permutes its argument). -/
def processedOf (workers : Nat) (source : List WorkItem)
    (order : List WorkItem → List WorkItem) : List WorkItem :=
  ((chunksOf (workers * 200) source).map order).flatten

/-- `run_processing`: chunked dispatch, per-future aggregation, final flush.
Its Python return value is the `total` field of this state. -/
def run_processing (cs : Bool) (fmts : List Str) (hasFile : Bool) (workers : Nat)
    (source : List WorkItem) (order : List WorkItem → List WorkItem) : RunState :=
  finalFlush hasFile (runItems cs fmts hasFile (processedOf workers source order) initState)

/-! ## Trace model of the pulling/collection loop

For the backpressure claim the run is abstracted to its source-consumption
events: one `pull k` event when `islice` materialises a chunk of `k` items
(they are all submitted to the pool at once), then one `collect` event per
`as_completed` iteration.  The loop only pulls the next chunk after the inner
`for` has consumed every future of the current chunk. -/

inductive Ev where
  | pull (k : Nat)
  | collect
deriving Repr, DecidableEq

/-- Events of one chunk: pull all of it, then collect its items one by one. -/
def chunkTrace (c : List WorkItem) : List Ev :=
  Ev.pull c.length :: List.replicate c.length Ev.collect

/-- Events of a whole run over the given chunks. -/
def traceOf (chunks : List (List WorkItem)) : List Ev :=
  (chunks.map chunkTrace).flatten

/-- Number of items pulled from the source after a sequence of events. -/
def pulled : List Ev → Nat
  | [] => 0
  | .pull k :: r => k + pulled r
  | .collect :: r => pulled r

/-- Number of completed items collected after a sequence of events. -/
def collected : List Ev → Nat
  | [] => 0
  | .pull _ :: r => collected r
  | .collect :: r => 1 + collected r

/-- A work item `process_single_task` handles without raising: any raw string,
or a pair whose two components are both non-empty. -/
def wellFormedItem : WorkItem → Prop
  | .str _ => True
  | .pair fn ln => fn ≠ [] ∧ ln ≠ []

end Fmfug

/-! # Theorems -/

namespace Fmfug

/-! ## Helper lemmas for the numeric-suffix path -/

lemma matchKw_append (k : Kw) (r : Str) : matchKw (kwStr k ++ r) = some (k, r) := by
  cases k <;> rfl

lemma takeWhile_digits_append (bd r : Str) (h : bd.all Char.isDigit = true) :
    (bd ++ ']' :: r).takeWhile Char.isDigit = bd := by
  induction bd with
  | nil => simp [List.takeWhile]
  | cons b bd ih =>
    simp only [List.all_cons, Bool.and_eq_true] at h
    simp [List.takeWhile, h.1, ih h.2]

lemma dropWhile_digits_append (bd r : Str) (h : bd.all Char.isDigit = true) :
    (bd ++ ']' :: r).dropWhile Char.isDigit = ']' :: r := by
  induction bd with
  | nil => simp [List.dropWhile]
  | cons b bd ih =>
    simp only [List.all_cons, Bool.and_eq_true] at h
    simp [List.dropWhile, h.1, ih h.2]

lemma numericMatch_append (k : Kw) (r : Str) :
    numericMatch (kwStr k ++ r) =
      match numericTail r with
      | none => none
      | some (br, n) => some (k, br, n) := by
  unfold numericMatch
  rw [matchKw_append]

lemma numericTail_bracket (bd ds : Str)
    (hbd : bd ≠ [] ∧ bd.all Char.isDigit = true) (hds : ds ≠ [] ∧ ds.all Char.isDigit = true) :
    numericTail ('[' :: (bd ++ ']' :: ds)) = some (some (digitsVal bd), digitsVal ds) := by
  obtain ⟨b, bd, rfl⟩ : ∃ b bd', bd = b :: bd' := by
    cases bd with
    | nil => exact absurd rfl hbd.1
    | cons b bd' => exact ⟨b, bd', rfl⟩
  have ht : ((b :: bd) ++ ']' :: ds).takeWhile Char.isDigit = b :: bd :=
    takeWhile_digits_append _ _ hbd.2
  have hd : ((b :: bd) ++ ']' :: ds).dropWhile Char.isDigit = ']' :: ds :=
    dropWhile_digits_append _ _ hbd.2
  unfold numericTail
  simp only [ht, hd]
  simp [hds.1, hds.2]

lemma numericTail_digits (ds : Str)
    (hds : ds ≠ [] ∧ ds.all Char.isDigit = true) :
    numericTail ds = some (none, digitsVal ds) := by
  obtain ⟨d, ds, rfl⟩ : ∃ d ds', ds = d :: ds' := by
    cases ds with
    | nil => exact absurd rfl hds.1
    | cons d ds' => exact ⟨d, ds', rfl⟩
  have hall := hds.2
  simp only [List.all_cons, Bool.and_eq_true] at hall
  have hd : d ≠ '[' := by
    intro h
    rw [h] at hall
    simp [Char.isDigit] at hall
  unfold numericTail
  split
  · next r2 heq =>
    injection heq with h1 h2
    exact absurd h1 hd
  all_goals simp [hds.1, hds.2]

lemma numericMatch_bracket (k : Kw) (bd ds : Str)
    (hbd : bd ≠ [] ∧ bd.all Char.isDigit = true) (hds : ds ≠ [] ∧ ds.all Char.isDigit = true) :
    numericMatch (kwStr k ++ '[' :: (bd ++ ']' :: ds)) =
      some (k, some (digitsVal bd), digitsVal ds) := by
  rw [numericMatch_append, numericTail_bracket bd ds hbd hds]

lemma numericMatch_plain (k : Kw) (ds : Str)
    (hds : ds ≠ [] ∧ ds.all Char.isDigit = true) :
    numericMatch (kwStr k ++ ds) = some (k, none, digitsVal ds) := by
  rw [numericMatch_append, numericTail_digits ds hds]

/-- C1: a format that in its entirety matches `keyword [bracket-digits]? digits`
takes the numeric-suffix path exclusively: the bracketed digits are discarded
(`keyword[bd]digits` evaluates exactly like `keyword digits`), and the result is
`base ++ str(i)` for `i = 0 .. n` in increasing order when the keyword-only base
substitutes to something non-empty, and nothing when it does not; ordinary
substitution is never consulted. -/
theorem c1_numeric_suffix_enumeration (cs : Bool) (np : NameParts) (k : Kw) (bd ds : Str)
    (hbd : bd ≠ [] ∧ bd.all Char.isDigit = true) (hds : ds ≠ [] ∧ ds.all Char.isDigit = true) :
    apply_format cs (kwStr k ++ '[' :: (bd ++ ']' :: ds)) np = apply_format cs (kwStr k ++ ds) np ∧
    apply_format cs (kwStr k ++ ds) np =
      (match process_format cs (kwStr k) np with
       | some base => (List.range (digitsVal ds + 1)).map fun i => base ++ natToStr i
       | none => []) := by
  constructor
  · rw [apply_format, apply_format, numericMatch_bracket k bd ds hbd hds,
      numericMatch_plain k ds hds]
  · rw [apply_format, numericMatch_plain k ds hds]

theorem c1_witness :
    ((("2".data ≠ [] ∧ "2".data.all Char.isDigit = true) ∧
      ("5".data ≠ [] ∧ "5".data.all Char.isDigit = true))) ∧
    (apply_format true (kwStr .first ++ '[' :: ("2".data ++ ']' :: "5".data))
        ⟨"Ada".data, [], "Lovelace".data⟩ =
      apply_format true (kwStr .first ++ "5".data) ⟨"Ada".data, [], "Lovelace".data⟩ ∧
    apply_format true (kwStr .first ++ "5".data) ⟨"Ada".data, [], "Lovelace".data⟩ =
      (match process_format true (kwStr .first) ⟨"Ada".data, [], "Lovelace".data⟩ with
       | some base => (List.range (digitsVal "5".data + 1)).map fun i => base ++ natToStr i
       | none => [])) :=
  ⟨⟨by decide, by decide⟩,
    c1_numeric_suffix_enumeration true ⟨"Ada".data, [], "Lovelace".data⟩ .first
      ("2".data) ("5".data) ⟨by decide, by decide⟩ ⟨by decide, by decide⟩⟩

/-- C4 counterexample: with the generator's default `case_sensitive = True`,
pattern `first[2]last` on name `"Ada Lovelace"` does NOT yield `["adLovelace"]`
as claimed — the 2-character prefix of `"Ada"` is `"Ad"`, capital `A` included. -/
theorem c4_first2last_counterexample :
    apply_format true ("first[2]last".data) (parse_name ("Ada Lovelace".data)) ≠
      ["adLovelace".data] := by decide

/-- C4 amended: pattern `first[2]last` on `"Ada Lovelace"` with the default
case-sensitive configuration yields exactly `["AdLovelace"]` — the first name
truncated to its first 2 characters (casing preserved, hence `"Ad"`) followed by
the last name, with no re-casing because the pattern starts lowercase. -/
theorem c4_first2last_amended :
    apply_format true ("first[2]last".data) (parse_name ("Ada Lovelace".data)) =
      ["AdLovelace".data] := by decide

/-- C5: what the code actually does on the claim's input.  The keyword regexes
only match the lowercase literals `first`/`middle`/`last`, so in pattern
`First.Last` nothing is substituted; the case-shaping branch for an
uppercase-initial pattern then capitalizes the (unsubstituted) segments,
yielding `["First.Last"]` — not `["Ada.Lovelace"]` as the spec intends. -/
theorem c5_uppercase_pattern_unsubstituted :
    apply_format true ("First.Last".data) (parse_name ("Ada Lovelace".data)) =
      ["First.Last".data] ∧
    apply_format true ("First.Last".data) (parse_name ("Ada Lovelace".data)) ≠
      ["Ada.Lovelace".data] := by decide

/-- C7 counterexample: a pair work item with an empty first component makes
`process_single_task` raise (`full_name` is `None`, and `None.strip()` raises
`AttributeError`), modelled as `Except.error` — it does not return a list. -/
theorem c7_pair_empty_counterexample :
    process_single_task true DEFAULT_FORMATS (prepare_args (WorkItem.pair [] ("smith".data))) =
      .error () := rfl

/-- C7 amended: `process_single_task` returns a (possibly empty) list of
strings rather than raising exactly for raw-string items and for pairs with
both components non-empty; a pair with an empty (falsy) component raises
instead (the upstream loop turns that into a per-item error event). -/
theorem c7_no_exception_amended (cs : Bool) (fmts : List Str) (item : WorkItem) :
    (∃ rs, process_single_task cs fmts (prepare_args item) = .ok rs) ↔ wellFormedItem item := by
  cases item with
  | str n =>
    simp only [wellFormedItem, iff_true]
    exact ⟨generate_from_name cs fmts n, rfl⟩
  | pair fn ln =>
    simp only [wellFormedItem]
    constructor
    · rintro ⟨rs, hrs⟩
      by_cases hfn : fn = [] <;> by_cases hln : ln = [] <;>
        simp_all [process_single_task, prepare_args, truthy]
    · rintro ⟨hfn, hln⟩
      refine ⟨generate_from_name cs fmts (fn ++ ' ' :: ln), ?_⟩
      simp [process_single_task, prepare_args, truthy, hfn, hln]

/-- C9 counterexample: the default format list contains no trailing-digit
(numeric-suffix) pattern at all: no entry is matched by `re_numeric`, and in
particular the digit-suffixed concatenated forms `firstlast1`/`lastfirst1` are
absent.  The `[1]`-suffixed entries are bracket length truncations, not
numeric-suffix enumerations. -/
theorem c9_default_formats_counterexample :
    (DEFAULT_FORMATS.all fun f => (numericMatch f).isNone) = true ∧
    "firstlast1".data ∉ DEFAULT_FORMATS ∧ "lastfirst1".data ∉ DEFAULT_FORMATS := by decide

/-- C9 amended: when no format strings are supplied (`None` or an empty list),
the generator uses a default set of exactly 18 patterns covering
first/last/firstlast/lastfirst in plain, dotted, hyphenated, underscored and
`[1]`-length-truncated variants (including truncated variants of the
concatenated forms); none of the 18 is a trailing-digit (numeric-suffix)
pattern. -/
theorem c9_default_formats_amended :
    defaultedFormats none = DEFAULT_FORMATS ∧
    defaultedFormats (some []) = DEFAULT_FORMATS ∧
    DEFAULT_FORMATS.length = 18 ∧
    (∀ f ∈ ["first".data, "last".data, "firstlast".data, "lastfirst".data], f ∈ DEFAULT_FORMATS) ∧
    (∀ f ∈ ["first.last".data, "last.first".data, "first-last".data, "last-first".data,
            "first_last".data, "last_first".data], f ∈ DEFAULT_FORMATS) ∧
    (∀ f ∈ ["first[1].last".data, "last[1].first".data, "firstlast[1]".data,
            "first[1]last".data, "last[1]first".data, "lastfirst[1]".data,
            "first[1]last[1]".data, "last[1]first[1]".data], f ∈ DEFAULT_FORMATS) ∧
    (DEFAULT_FORMATS.all fun f => (numericMatch f).isNone) = true := by decide

/-! ## Helper lemmas for C6: `split()` ignores leading and trailing whitespace -/

lemma wordsAux_dropWhile (s : Str) :
    wordsAux [] (s.dropWhile Char.isWhitespace) = wordsAux [] s := by
  induction s with
  | nil => rfl
  | cons c r ih =>
    by_cases h : c.isWhitespace
    · simp [List.dropWhile, h, wordsAux, ih]
    · simp [List.dropWhile, h]

lemma wordsAux_all_ws (t : Str) (ht : ∀ c ∈ t, c.isWhitespace = true) (cur : Str) :
    wordsAux cur t = wordsAux cur [] := by
  induction t generalizing cur with
  | nil => rfl
  | cons c r ih =>
    have hc : c.isWhitespace = true := ht c (by simp)
    have hr : ∀ x ∈ r, x.isWhitespace = true := fun x hx => ht x (by simp [hx])
    by_cases hcur : cur = []
    · subst hcur
      simp [wordsAux, hc, ih hr]
    · simp [wordsAux, hc, hcur, ih hr]

lemma wordsAux_append_ws (s t : Str) (ht : ∀ c ∈ t, c.isWhitespace = true) (cur : Str) :
    wordsAux cur (s ++ t) = wordsAux cur s := by
  induction s generalizing cur with
  | nil => simpa using wordsAux_all_ws t ht cur
  | cons c r ih =>
    by_cases h : c.isWhitespace <;> simp [wordsAux, h, ih]

lemma rev_ws_decomp (l : Str) :
    l = (l.reverse.dropWhile Char.isWhitespace).reverse ++
        (l.reverse.takeWhile Char.isWhitespace).reverse := by
  have h : l.reverse.takeWhile Char.isWhitespace ++ l.reverse.dropWhile Char.isWhitespace =
      l.reverse := List.takeWhile_append_dropWhile Char.isWhitespace l.reverse
  calc l = l.reverse.reverse := (List.reverse_reverse l).symm
    _ = (l.reverse.takeWhile Char.isWhitespace ++
          l.reverse.dropWhile Char.isWhitespace).reverse := by rw [h]
    _ = (l.reverse.dropWhile Char.isWhitespace).reverse ++
          (l.reverse.takeWhile Char.isWhitespace).reverse := List.reverse_append _ _

lemma words_trim (s : Str) : words (trim s) = words s := by
  have hws : ∀ c ∈ ((s.dropWhile Char.isWhitespace).reverse.takeWhile Char.isWhitespace).reverse,
      c.isWhitespace = true :=
    fun c hc => List.mem_takeWhile_imp (List.mem_reverse.mp hc)
  have h1 : words (s.dropWhile Char.isWhitespace) = words (trim s) := by
    rw [words, words, trim]
    conv_lhs => rw [rev_ws_decomp (s.dropWhile Char.isWhitespace)]
    exact wordsAux_append_ws _ _ hws []
  rw [← h1, words, words, wordsAux_dropWhile]

lemma parse_name_trim (s : Str) : parse_name (trim s) = parse_name s := by
  unfold parse_name
  rw [words_trim]

/-- C6: any input name whose parsed first component is empty — in particular a
blank or whitespace-only raw string — generates no usernames, for every
configuration of formats and case sensitivity. -/
theorem c6_empty_first_no_output (cs : Bool) (formats : List Str) (name : Str)
    (h : (parse_name name).first = []) : generate_from_name cs formats name = [] := by
  by_cases htr : trim name = []
  · simp [generate_from_name, htr]
  · have h2 : (parse_name (trim name)).first = [] := by rw [parse_name_trim]; exact h
    simp [generate_from_name, htr, h2]

theorem c6_witness :
    (parse_name ("  \t ".data)).first = [] ∧
    generate_from_name true DEFAULT_FORMATS ("  \t ".data) = [] :=
  ⟨by decide, c6_empty_first_no_output true DEFAULT_FORMATS ("  \t ".data) (by decide)⟩

/-- C10: ordinary substitution is two sequential passes over one string — the
bracket pass splices truncated name values into the pattern text, and the
keyword pass re-scans the spliced text, so a spliced value that spells a
keyword is substituted again.  For name `"lastman smith"`, `first[4]` splices
`"last"` (the 4-char prefix of the first name), the keyword pass replaces that
`"last"` by the last-name field, and the pattern evaluates to `["smith"]`, not
`["last"]`. -/
theorem c10_two_pass_resubstitution :
    (∀ np fmt, substitute np fmt = kwSub np (bracketSub np fmt)) ∧
    bracketSub (parse_name ("lastman smith".data)) ("first[4]".data) = "last".data ∧
    kwSub (parse_name ("lastman smith".data)) ("last".data) = "smith".data ∧
    (∀ cs, apply_format cs ("first[4]".data) (parse_name ("lastman smith".data)) =
      ["smith".data]) ∧
    apply_format true ("first[4]".data) (parse_name ("lastman smith".data)) ≠ ["last".data] :=
  ⟨fun _ _ => rfl, by decide, by decide, fun cs => by cases cs <;> decide, by decide⟩

/-! ## Helper lemmas for the pipeline: chunking -/

lemma chunksOfF_flatten {α : Type} (n : Nat) (hn : 0 < n) :
    ∀ (fuel : Nat) (l : List α), l.length ≤ fuel → (chunksOfF n fuel l).flatten = l := by
  intro fuel
  induction fuel with
  | zero =>
    intro l hl
    have : l = [] := List.eq_nil_of_length_eq_zero (Nat.le_zero.mp hl)
    subst this
    rfl
  | succ fuel ih =>
    intro l hl
    cases l with
    | nil => rfl
    | cons a as =>
      have hlen : ((a :: as).drop n).length ≤ fuel := by
        rw [List.length_drop]
        simp only [List.length_cons] at hl ⊢
        omega
      simp only [chunksOfF, if_neg hn.ne']
      rw [List.flatten_cons, ih _ hlen, List.take_append_drop]

lemma chunksOf_flatten {α : Type} (n : Nat) (hn : 0 < n) (l : List α) :
    (chunksOf n l).flatten = l :=
  chunksOfF_flatten n hn l.length l (Nat.le_refl _)

lemma chunksOfF_mem_length {α : Type} (n : Nat) :
    ∀ (fuel : Nat) (l c : List α), c ∈ chunksOfF n fuel l → c.length ≤ n := by
  intro fuel
  induction fuel with
  | zero =>
    intro l c hc
    cases l <;> simp [chunksOfF] at hc
  | succ fuel ih =>
    intro l c hc
    cases l with
    | nil => simp [chunksOfF] at hc
    | cons a as =>
      simp only [chunksOfF] at hc
      by_cases hn : n = 0
      · rw [if_pos hn] at hc
        simp at hc
      · rw [if_neg hn] at hc
        rcases List.mem_cons.mp hc with h | h
        · subst h
          rw [List.length_take]
          omega
        · exact ih _ _ h

lemma chunksOf_mem_length {α : Type} (n : Nat) (l c : List α)
    (hc : c ∈ chunksOf n l) : c.length ≤ n :=
  chunksOfF_mem_length n l.length l c hc

/-! ## Helper lemmas for the pipeline: permutations -/

lemma perm_map_order (order : List WorkItem → List WorkItem)
    (ho : ∀ c, (order c).Perm c) (l : List (List WorkItem)) :
    List.Forall₂ (fun a b => List.Perm a b) (l.map order) l := by
  induction l with
  | nil => constructor
  | cons c cs ih => exact List.Forall₂.cons (ho c) ih

lemma processedOf_perm (w : Nat) (source : List WorkItem)
    (order : List WorkItem → List WorkItem) (hw : 0 < w) (ho : ∀ c, (order c).Perm c) :
    (processedOf w source order).Perm source := by
  have h1 := List.Perm.flatten_congr (perm_map_order order ho (chunksOf (w * 200) source))
  rwa [chunksOf_flatten (w * 200) (Nat.mul_pos hw (by decide)) source] at h1

lemma perm_flatten {α : Type} {l₁ l₂ : List (List α)} (h : l₁.Perm l₂) :
    l₁.flatten.Perm l₂.flatten := by
  induction h with
  | nil => exact List.Perm.refl _
  | cons x _ ih =>
    simp only [List.flatten_cons]
    exact ih.append_left x
  | swap x y l =>
    simp only [List.flatten_cons]
    rw [← List.append_assoc, ← List.append_assoc]
    exact List.perm_append_comm.append_right _
  | trans _ _ ih1 ih2 => exact ih1.trans ih2

/-! ## Helper lemmas for the pipeline: one collected item -/

lemma collectItem_total (cs : Bool) (fmts : List Str) (hf : Bool) (st : RunState) (i : WorkItem) :
    (collectItem cs fmts hf st i).total = st.total + itemCount cs fmts i := by
  cases h : itemResult cs fmts i with
  | ok us =>
    unfold collectItem itemCount itemStrings
    rw [h]
    cases hf with
    | true =>
      dsimp only
      split
      · split <;> simp
      · next hfalse => exact absurd rfl hfalse
    | false => simp
  | error e =>
    unfold collectItem itemCount itemStrings
    rw [h]
    try simp

lemma collectItem_progress (cs : Bool) (fmts : List Str) (hf : Bool) (st : RunState)
    (i : WorkItem) : (collectItem cs fmts hf st i).progress = st.progress + 1 := by
  cases h : itemResult cs fmts i with
  | ok us =>
    unfold collectItem
    rw [h]
    cases hf with
    | true =>
      dsimp only
      split
      · split <;> simp
      · next hfalse => exact absurd rfl hfalse
    | false => simp
  | error e =>
    unfold collectItem
    rw [h]
    try simp

lemma collectItem_errors (cs : Bool) (fmts : List Str) (hf : Bool) (st : RunState)
    (i : WorkItem) :
    (collectItem cs fmts hf st i).errors =
      st.errors ++ (if itemFails cs fmts i then [i] else []) := by
  cases h : itemResult cs fmts i with
  | ok us =>
    unfold collectItem itemFails
    rw [h]
    cases hf with
    | true =>
      dsimp only
      split
      · split <;> simp
      · next hfalse => exact absurd rfl hfalse
    | false => simp
  | error e =>
    unfold collectItem itemFails
    rw [h]
    try simp

lemma collectItem_stdout (cs : Bool) (fmts : List Str) (st : RunState) (i : WorkItem) :
    (collectItem cs fmts false st i).stdout = st.stdout ++ itemStrings cs fmts i := by
  cases h : itemResult cs fmts i with
  | ok us =>
    unfold collectItem itemStrings
    rw [h]
    simp
  | error e =>
    unfold collectItem itemStrings
    rw [h]
    try simp

lemma collectItem_flat (cs : Bool) (fmts : List Str) (st : RunState) (i : WorkItem) :
    (collectItem cs fmts true st i).writes.flatten ++ (collectItem cs fmts true st i).buffer =
      st.writes.flatten ++ st.buffer ++ itemStrings cs fmts i := by
  cases h : itemResult cs fmts i with
  | ok us =>
    unfold collectItem itemStrings
    rw [h]
    dsimp only
    split
    · split <;> simp [List.flatten_append, List.append_assoc]
    · next hfalse => exact absurd rfl hfalse
  | error e =>
    unfold collectItem itemStrings
    rw [h]
    try simp

lemma collectItem_buffer_lt (cs : Bool) (fmts : List Str) (st : RunState) (i : WorkItem)
    (h : st.buffer.length < WRITE_BUFFER_SIZE) :
    (collectItem cs fmts true st i).buffer.length < WRITE_BUFFER_SIZE := by
  cases hres : itemResult cs fmts i with
  | ok us =>
    unfold collectItem
    rw [hres]
    dsimp only
    split
    · split
      · show ([] : List Str).length < WRITE_BUFFER_SIZE
        decide
      · next hth =>
        simp only [List.length_append] at hth ⊢
        exact Nat.lt_of_not_le hth
    · next hfalse => exact absurd rfl hfalse
  | error e =>
    unfold collectItem
    rw [hres]
    simpa using h

lemma collectItem_writes_ge (cs : Bool) (fmts : List Str) (st : RunState) (i : WorkItem)
    (h : ∀ b ∈ st.writes, WRITE_BUFFER_SIZE ≤ b.length) :
    ∀ b ∈ (collectItem cs fmts true st i).writes, WRITE_BUFFER_SIZE ≤ b.length := by
  cases hres : itemResult cs fmts i with
  | ok us =>
    unfold collectItem
    rw [hres]
    dsimp only
    split
    · split
      · next hth =>
        intro b hb
        simp only [List.mem_append, List.mem_singleton] at hb
        rcases hb with hb | hb
        · exact h b hb
        · subst hb; exact hth
      · simpa using h
    · next hfalse => exact absurd rfl hfalse
  | error e =>
    unfold collectItem
    rw [hres]
    simpa using h

/-! ## Helper lemmas for the pipeline: folding a completion order -/

lemma runItems_cons (cs : Bool) (fmts : List Str) (hf : Bool) (i : WorkItem)
    (items : List WorkItem) (st : RunState) :
    runItems cs fmts hf (i :: items) st = runItems cs fmts hf items (collectItem cs fmts hf st i) :=
  rfl

lemma runItems_total (cs : Bool) (fmts : List Str) (hf : Bool) (items : List WorkItem)
    (st : RunState) :
    (runItems cs fmts hf items st).total = st.total + (items.map (itemCount cs fmts)).sum := by
  induction items generalizing st with
  | nil => simp [runItems]
  | cons i items ih =>
    rw [runItems_cons, ih, collectItem_total]
    simp [Nat.add_assoc]

lemma runItems_progress (cs : Bool) (fmts : List Str) (hf : Bool) (items : List WorkItem)
    (st : RunState) :
    (runItems cs fmts hf items st).progress = st.progress + items.length := by
  induction items generalizing st with
  | nil => simp [runItems]
  | cons i items ih =>
    rw [runItems_cons, ih, collectItem_progress]
    simp [Nat.add_assoc, Nat.add_comm 1 items.length]

lemma runItems_errors (cs : Bool) (fmts : List Str) (hf : Bool) (items : List WorkItem)
    (st : RunState) :
    (runItems cs fmts hf items st).errors = st.errors ++ items.filter (itemFails cs fmts) := by
  induction items generalizing st with
  | nil => simp [runItems]
  | cons i items ih =>
    rw [runItems_cons, ih, collectItem_errors]
    cases hfail : itemFails cs fmts i <;> simp [List.filter_cons, hfail]

lemma runItems_stdout (cs : Bool) (fmts : List Str) (items : List WorkItem) (st : RunState) :
    (runItems cs fmts false items st).stdout =
      st.stdout ++ (items.map (itemStrings cs fmts)).flatten := by
  induction items generalizing st with
  | nil => simp [runItems]
  | cons i items ih =>
    rw [runItems_cons, ih, collectItem_stdout]
    simp [List.append_assoc]

lemma runItems_writes_buffer (cs : Bool) (fmts : List Str) (items : List WorkItem)
    (st : RunState) :
    (runItems cs fmts true items st).writes.flatten ++ (runItems cs fmts true items st).buffer =
      st.writes.flatten ++ st.buffer ++ (items.map (itemStrings cs fmts)).flatten := by
  induction items generalizing st with
  | nil => simp [runItems]
  | cons i items ih =>
    rw [runItems_cons, ih, collectItem_flat]
    simp [List.append_assoc]

lemma runItems_buffer_lt (cs : Bool) (fmts : List Str) (items : List WorkItem) (st : RunState)
    (h : st.buffer.length < WRITE_BUFFER_SIZE) :
    (runItems cs fmts true items st).buffer.length < WRITE_BUFFER_SIZE := by
  induction items generalizing st with
  | nil => simpa [runItems] using h
  | cons i items ih =>
    rw [runItems_cons]
    exact ih _ (collectItem_buffer_lt cs fmts st i h)

lemma runItems_writes_ge (cs : Bool) (fmts : List Str) (items : List WorkItem) (st : RunState)
    (h : ∀ b ∈ st.writes, WRITE_BUFFER_SIZE ≤ b.length) :
    ∀ b ∈ (runItems cs fmts true items st).writes, WRITE_BUFFER_SIZE ≤ b.length := by
  induction items generalizing st with
  | nil => simpa [runItems] using h
  | cons i items ih =>
    rw [runItems_cons]
    exact ih _ (collectItem_writes_ge cs fmts st i h)

/-! ## Helper lemmas for the trace model -/

lemma pulled_append (a b : List Ev) : pulled (a ++ b) = pulled a + pulled b := by
  induction a with
  | nil => simp [pulled]
  | cons e r ih => cases e <;> simp [pulled, ih, Nat.add_assoc]

lemma collected_append (a b : List Ev) : collected (a ++ b) = collected a + collected b := by
  induction a with
  | nil => simp [collected]
  | cons e r ih => cases e <;> simp [collected, ih, Nat.add_assoc]

lemma pulled_replicate (n : Nat) : pulled (List.replicate n Ev.collect) = 0 := by
  induction n with
  | zero => rfl
  | succ n ih => simpa [List.replicate, pulled] using ih

lemma collected_replicate (n : Nat) : collected (List.replicate n Ev.collect) = n := by
  induction n with
  | zero => rfl
  | succ n ih => simp [List.replicate, collected, ih]; omega

lemma prefix_append_cases {α : Type} {p a b : List α} (h : p <+: a ++ b) :
    p <+: a ∨ ∃ q, p = a ++ q ∧ q <+: b := by
  induction a generalizing p with
  | nil => exact Or.inr ⟨p, rfl, h⟩
  | cons x a ih =>
    cases p with
    | nil => exact Or.inl ⟨x :: a, rfl⟩
    | cons y p =>
      rw [List.cons_append] at h
      rcases List.cons_prefix_cons.mp h with ⟨rfl, h2⟩
      rcases ih h2 with h3 | ⟨q, rfl, hq⟩
      · exact Or.inl (List.cons_prefix_cons.mpr ⟨rfl, h3⟩)
      · exact Or.inr ⟨q, rfl, hq⟩

lemma prefix_replicate {α : Type} {p : List α} {n : Nat} {a : α}
    (h : p <+: List.replicate n a) : p = List.replicate p.length a ∧ p.length ≤ n := by
  have hlen : p.length ≤ n := by simpa using h.length_le
  refine ⟨?_, hlen⟩
  have hp := List.prefix_iff_eq_take.mp h
  rw [hp, List.take_replicate, Nat.min_eq_left hlen]
  simp [List.take_replicate, Nat.min_eq_left hlen]

/-- The inflight invariant of the chunked loop: along every prefix of the run's
trace, the number of collected items never exceeds the number pulled, and the
pulled-but-not-yet-collected count never exceeds `cap`, provided no chunk is
longer than `cap`. -/
lemma trace_inflight (cap : Nat) (chunks : List (List WorkItem))
    (hlen : ∀ c ∈ chunks, c.length ≤ cap) :
    ∀ p, p <+: traceOf chunks → collected p ≤ pulled p ∧ pulled p - collected p ≤ cap := by
  induction chunks with
  | nil =>
    intro p hp
    have : p = [] := List.prefix_nil.mp (by simpa [traceOf] using hp)
    subst this
    simp [pulled, collected]
  | cons c cs ih =>
    intro p hp
    have hc : c.length ≤ cap := hlen c (by simp)
    have hcs : ∀ x ∈ cs, x.length ≤ cap := fun x hx => hlen x (by simp [hx])
    rw [traceOf, List.map_cons, List.flatten_cons] at hp
    rcases prefix_append_cases hp with h1 | ⟨q, rfl, hq⟩
    · rw [chunkTrace] at h1
      cases p with
      | nil => simp [pulled, collected]
      | cons e p =>
        rcases List.cons_prefix_cons.mp h1 with ⟨rfl, h2⟩
        rcases prefix_replicate h2 with ⟨hrep, hle⟩
        rw [hrep]
        simp only [pulled, collected, pulled_replicate, collected_replicate]
        omega
    · have hq2 := ih hcs q hq
      rw [pulled_append, collected_append]
      have hp1 : pulled (chunkTrace c) = c.length := by
        simp [chunkTrace, pulled, pulled_replicate]
      have hp2 : collected (chunkTrace c) = c.length := by
        simp [chunkTrace, collected, collected_replicate]
      rw [hp1, hp2]
      omega

/-- C2: `run_processing` consumes its source in consecutive chunks of size
`workers * 200` — the chunks concatenate back to the source and none is longer
than `workers * 200` — and every task of the current chunk is awaited before
the next chunk is pulled, so along every prefix of the run's pull/collect
trace the number of items pulled but not yet collected is at most
`workers * 200`, regardless of the source's size. -/
theorem c2_chunked_backpressure (w : Nat) (source : List WorkItem) (hw : 0 < w) :
    (chunksOf (w * 200) source).flatten = source ∧
    (∀ c ∈ chunksOf (w * 200) source, c.length ≤ w * 200) ∧
    (∀ p, p <+: traceOf (chunksOf (w * 200) source) →
      collected p ≤ pulled p ∧ pulled p - collected p ≤ w * 200) := by
  refine ⟨chunksOf_flatten _ (Nat.mul_pos hw (by decide)) _,
    fun c hc => chunksOf_mem_length _ _ _ hc, ?_⟩
  exact trace_inflight _ _ (fun c hc => chunksOf_mem_length _ _ _ hc)

theorem c2_witness :
    0 < 1 ∧
    ((chunksOf (1 * 200) [WorkItem.str ("ada lovelace".data)]).flatten =
        [WorkItem.str ("ada lovelace".data)] ∧
      (∀ c ∈ chunksOf (1 * 200) [WorkItem.str ("ada lovelace".data)], c.length ≤ 1 * 200) ∧
      (∀ p, p <+: traceOf (chunksOf (1 * 200) [WorkItem.str ("ada lovelace".data)]) →
        collected p ≤ pulled p ∧ pulled p - collected p ≤ 1 * 200)) :=
  ⟨by decide, c2_chunked_backpressure 1 [WorkItem.str ("ada lovelace".data)] (by decide)⟩

/-- C3: for every completion order that chunkwise permutes the source, the run
returns a total equal to the sum of the successful items' result counts only,
advances the progress counter once per item (success or failure), reports
exactly the failed items (one error event each, carrying the item), and in
stdout mode forwards exactly the successful items' strings to the output; a
failing item neither aborts the run nor contributes to the total. -/
theorem c3_per_item_aggregation (cs : Bool) (fmts : List Str) (hf : Bool) (w : Nat)
    (source : List WorkItem) (order : List WorkItem → List WorkItem)
    (hw : 0 < w) (ho : ∀ c, (order c).Perm c) :
    (run_processing cs fmts hf w source order).total =
      (source.map (itemCount cs fmts)).sum ∧
    (run_processing cs fmts hf w source order).progress = source.length ∧
    (run_processing cs fmts hf w source order).errors.Perm
      (source.filter (itemFails cs fmts)) ∧
    (hf = false → (run_processing cs fmts hf w source order).stdout.Perm
      ((source.map (itemStrings cs fmts)).flatten)) := by
  have hperm := processedOf_perm w source order hw ho
  have hff : ∀ st : RunState, (finalFlush hf st).total = st.total ∧
      (finalFlush hf st).progress = st.progress ∧
      (finalFlush hf st).errors = st.errors ∧
      (finalFlush hf st).stdout = st.stdout := by
    intro st
    unfold finalFlush
    split <;> simp
  refine ⟨?_, ?_, ?_, ?_⟩
  · rw [run_processing, (hff _).1, runItems_total]
    simpa [initState] using (hperm.map (itemCount cs fmts)).sum_eq
  · rw [run_processing, (hff _).2.1, runItems_progress]
    simpa [initState] using hperm.length_eq
  · rw [run_processing, (hff _).2.2.1, runItems_errors]
    simpa [initState] using hperm.filter (itemFails cs fmts)
  · intro h0
    subst h0
    rw [run_processing, (hff _).2.2.2, runItems_stdout]
    simpa [initState] using perm_flatten (hperm.map (itemStrings cs fmts))

theorem c3_witness :
    (0 < 1) ∧
    ((run_processing true ["first".data] false 1
        [WorkItem.str ("ada lovelace".data), WorkItem.pair [] ("x".data)] id).total =
      ([WorkItem.str ("ada lovelace".data), WorkItem.pair [] ("x".data)].map
        (itemCount true ["first".data])).sum ∧
    (run_processing true ["first".data] false 1
        [WorkItem.str ("ada lovelace".data), WorkItem.pair [] ("x".data)] id).progress =
      [WorkItem.str ("ada lovelace".data), WorkItem.pair [] ("x".data)].length ∧
    (run_processing true ["first".data] false 1
        [WorkItem.str ("ada lovelace".data), WorkItem.pair [] ("x".data)] id).errors.Perm
      ([WorkItem.str ("ada lovelace".data), WorkItem.pair [] ("x".data)].filter
        (itemFails true ["first".data])) ∧
    (false = false → (run_processing true ["first".data] false 1
        [WorkItem.str ("ada lovelace".data), WorkItem.pair [] ("x".data)] id).stdout.Perm
      (([WorkItem.str ("ada lovelace".data), WorkItem.pair [] ("x".data)].map
        (itemStrings true ["first".data])).flatten))) :=
  ⟨by decide,
    c3_per_item_aggregation true ["first".data] false 1
      [WorkItem.str ("ada lovelace".data), WorkItem.pair [] ("x".data)] id
      (by decide) (fun c => List.Perm.refl c)⟩

/-- C8: in file mode, for every completion order that chunkwise permutes the
source: the concatenation of all write operations equals, in processing
order, exactly the strings generated by the successful items (so every
generated string is written exactly once, and nothing is left unwritten after
the final-remainder write); after each collected item the buffer holds fewer
than `WRITE_BUFFER_SIZE = 1000` entries (reaching the threshold triggers an
immediate write that empties it); every write before the final one carries at
least 1000 strings; and the run's writes are the in-loop writes plus one final
write of the non-empty remainder. -/
theorem c8_buffered_exactly_once (cs : Bool) (fmts : List Str) (w : Nat)
    (source : List WorkItem) (order : List WorkItem → List WorkItem)
    (hw : 0 < w) (ho : ∀ c, (order c).Perm c) :
    (run_processing cs fmts true w source order).writes.flatten =
      ((processedOf w source order).map (itemStrings cs fmts)).flatten ∧
    (run_processing cs fmts true w source order).writes.flatten.Perm
      ((source.map (itemStrings cs fmts)).flatten) ∧
    (∀ p, p <+: processedOf w source order →
      (runItems cs fmts true p initState).buffer.length < WRITE_BUFFER_SIZE) ∧
    (∀ b ∈ (runItems cs fmts true (processedOf w source order) initState).writes,
      WRITE_BUFFER_SIZE ≤ b.length) ∧
    (run_processing cs fmts true w source order).writes =
      (runItems cs fmts true (processedOf w source order) initState).writes ++
        (if (runItems cs fmts true (processedOf w source order) initState).buffer = []
         then []
         else [(runItems cs fmts true (processedOf w source order) initState).buffer]) := by
  have hperm := processedOf_perm w source order hw ho
  have hkey : ∀ st : RunState,
      (finalFlush true st).writes.flatten = st.writes.flatten ++ st.buffer := by
    intro st
    unfold finalFlush
    split
    · simp [List.flatten_append]
    · next hcond =>
      have : st.buffer = [] := by
        by_cases hb : st.buffer = []
        · exact hb
        · exact absurd ⟨rfl, hb⟩ hcond
      simp [this]
  have hmain : (run_processing cs fmts true w source order).writes.flatten =
      ((processedOf w source order).map (itemStrings cs fmts)).flatten := by
    rw [run_processing, hkey, runItems_writes_buffer]
    simp [initState]
  refine ⟨hmain, ?_, ?_, ?_, ?_⟩
  · rw [hmain]
    exact perm_flatten (hperm.map (itemStrings cs fmts))
  · intro p hp
    exact runItems_buffer_lt cs fmts p initState (by simp [initState, WRITE_BUFFER_SIZE])
  · exact runItems_writes_ge cs fmts _ initState (by simp [initState])
  · rw [run_processing]
    unfold finalFlush
    split
    · next hcond => rw [if_neg hcond.2]
    · next hcond =>
      have hb : (runItems cs fmts true (processedOf w source order) initState).buffer = [] := by
        by_cases hb : (runItems cs fmts true (processedOf w source order) initState).buffer = []
        · exact hb
        · exact absurd ⟨rfl, hb⟩ hcond
      rw [if_pos hb]
      simp

theorem c8_witness :
    (0 < 1) ∧
    ((run_processing true ["first".data] true 1 [WorkItem.str ("ada lovelace".data)] id).writes.flatten =
      ((processedOf 1 [WorkItem.str ("ada lovelace".data)] id).map
        (itemStrings true ["first".data])).flatten ∧
    (run_processing true ["first".data] true 1 [WorkItem.str ("ada lovelace".data)] id).writes.flatten.Perm
      (([WorkItem.str ("ada lovelace".data)].map (itemStrings true ["first".data])).flatten) ∧
    (∀ p, p <+: processedOf 1 [WorkItem.str ("ada lovelace".data)] id →
      (runItems true ["first".data] true p initState).buffer.length < WRITE_BUFFER_SIZE) ∧
    (∀ b ∈ (runItems true ["first".data] true
        (processedOf 1 [WorkItem.str ("ada lovelace".data)] id) initState).writes,
      WRITE_BUFFER_SIZE ≤ b.length) ∧
    (run_processing true ["first".data] true 1 [WorkItem.str ("ada lovelace".data)] id).writes =
      (runItems true ["first".data] true
          (processedOf 1 [WorkItem.str ("ada lovelace".data)] id) initState).writes ++
        (if (runItems true ["first".data] true
            (processedOf 1 [WorkItem.str ("ada lovelace".data)] id) initState).buffer = []
         then []
         else [(runItems true ["first".data] true
            (processedOf 1 [WorkItem.str ("ada lovelace".data)] id) initState).buffer])) :=
  ⟨by decide,
    c8_buffered_exactly_once true ["first".data] 1 [WorkItem.str ("ada lovelace".data)] id
      (by decide) (fun c => List.Perm.refl c)⟩

end Fmfug


